import Mathlib

set_option maxRecDepth 8000

/-!
Verification of the tablature synthesis engine of the guitar_tab repository
(guitartab_transcriber/transcriber.py, tab_format.py, types.py).

Seconds, beats and velocities are modelled as rationals; MIDI pitches,
string numbers and frets as integers.  Python's stable list.sort with a key
function is modelled by List.insertionSort on the corresponding order
relation (a stable sort by a total preorder is uniquely determined, so any
stable sort yields the same list as CPython's timsort).  Python's min with a
key function keeps the first element attaining the minimal key, which
py_min below reproduces.
-/

namespace GuitarTab

/-- Raw detected note (types.py, class Note).  The field end is renamed to
endTime because end is a Lean keyword. -/
structure Note where
  start : ℚ
  endTime : ℚ
  pitch : ℤ
  velocity : ℚ
deriving DecidableEq, Repr

/-- Ordering of notes by start time, the key used by every
notes.sort(key start) call in transcriber.py. -/
def startLe (a b : Note) : Prop := a.start ≤ b.start

instance : DecidableRel startLe :=
  fun a b => inferInstanceAs (Decidable (a.start ≤ b.start))

instance : IsTotal Note startLe := ⟨fun a b => le_total a.start b.start⟩

instance : IsTrans Note startLe := ⟨fun _ _ _ h1 h2 => le_trans h1 h2⟩

/-- Ordering of notes by pitch, the key of group.sort(key pitch) in
_filter_notes. -/
def pitchLe (a b : Note) : Prop := a.pitch ≤ b.pitch

instance : DecidableRel pitchLe :=
  fun a b => inferInstanceAs (Decidable (a.pitch ≤ b.pitch))

instance : IsTotal Note pitchLe := ⟨fun a b => le_total a.pitch b.pitch⟩

instance : IsTrans Note pitchLe := ⟨fun _ _ _ h1 h2 => le_trans h1 h2⟩

/-- Simultaneity-grouping loop of _filter_notes (transcriber.py lines
178-189).  A note joins the current group when its start is within 0.05 s
of the group's first member (the anchor); otherwise it opens a new group. -/
def group_aux (cur : List Note) (anchor : ℚ) : List Note → List (List Note)
  | [] => [cur]
  | n :: ns =>
    if |n.start - anchor| < 1/20 then group_aux (cur ++ [n]) anchor ns
    else cur :: group_aux [n] n.start ns

/-- Grouping of a (sorted) note list into simultaneity groups, including the
empty-input early return of _filter_notes. -/
def group_notes : List Note → List (List Note)
  | [] => []
  | n :: ns => group_aux [n] n.start ns

/-- Harmonic-artifact test of _filter_notes (transcriber.py lines 207-227):
an octave or fifth above the root that is clearly quieter than the root, or
a third above the root that is very quiet. -/
def is_harmonic (root note : Note) : Bool :=
  let interval := note.pitch - root.pitch
  decide ((interval ∈ ([12, 24, 7, 19] : List ℤ) ∧
             note.velocity < root.velocity * (4/5)) ∨
          (interval ∈ ([4, 16] : List ℤ) ∧
             note.velocity < root.velocity * (1/2)))

/-- Per-group filtering of _filter_notes (transcriber.py lines 193-229):
size-1 groups pass through; larger groups are sorted by ascending pitch, the
lowest note (the root) is always kept, and every other member is kept unless
flagged as a harmonic artifact. -/
def keep_group (group : List Note) : List Note :=
  if group.length = 1 then group
  else
    match List.insertionSort pitchLe group with
    | [] => []
    | root :: others => root :: others.filter (fun note => ! is_harmonic root note)

/-- Final cleanup pass of _filter_notes (transcriber.py lines 231-237): drop
notes shorter than 0.05 s, and notes above pitch 75 with velocity below 0.3. -/
def final_cleanup (notes : List Note) : List Note :=
  notes.filter (fun n =>
    decide (¬ (n.endTime - n.start < 1/20)) &&
    decide (¬ (n.pitch > 75 ∧ n.velocity < 3/10)))

/-- _filter_notes (transcriber.py lines 169-239): sort by start, group
simultaneous notes, filter harmonics per group, concatenate, clean up. -/
def filter_notes (notes : List Note) : List Note :=
  final_cleanup
    (List.flatten ((group_notes (List.insertionSort startLe notes)).map keep_group))

/-- Tab event (tab_format.py, class TabEvent).  The event dicts built by
_notes_to_guitar_positions carry exactly the same four fields and are
modelled by the same structure. -/
structure TabEvent where
  string : ℤ
  fret : ℤ
  start : ℚ
  endTime : ℚ
deriving DecidableEq, Repr

/-- Open-string MIDI pitches of the standard E tuning: the dict open_strings
of transcriber.py (lines 256-263) and tab_format.py (lines 197-204).  A
Python lookup outside keys 1..6 raises KeyError and never happens in the
pipeline; the function returns 0 there. -/
def open_strings : ℤ → ℤ
  | 6 => 40
  | 5 => 45
  | 4 => 50
  | 3 => 55
  | 2 => 59
  | 1 => 64
  | _ => 0

/-- Iteration order of the open_strings dict (Python dict insertion order). -/
def string_order : List ℤ := [6, 5, 4, 3, 2, 1]

/-- A candidate (string, fret) position. -/
structure Pos where
  string : ℤ
  fret : ℤ
deriving DecidableEq, Repr

/-- Candidate enumeration of _notes_to_guitar_positions (lines 281-285):
every string on which the pitch is reachable with fret 0..20, in dict
iteration order. -/
def possible_positions (pitch : ℤ) : List Pos :=
  string_order.filterMap (fun s =>
    let fret := pitch - open_strings s
    if 0 ≤ fret ∧ fret ≤ 20 then some ⟨s, fret⟩ else none)

/-- calculate_cost (transcriber.py lines 293-314) for a candidate position,
given the current hand position: fret-distance cost (0 for open strings and
whenever the hand position is 0) plus the high-fret penalty. -/
def calculate_cost (current_hand_pos : ℤ) (pos : Pos) : ℤ :=
  let fret := pos.fret
  let fret_dist : ℤ :=
    if fret = 0 then 0
    else if current_hand_pos = 0 then 0
    else |fret - current_hand_pos|
  let high_fret_penalty : ℤ := if fret > 12 then (fret - 12) * 2 else 0
  fret_dist + high_fret_penalty

/-- Python min with a key function: scan left to right, keeping the first
element whose key is minimal. -/
def py_min {α β : Type} [LinearOrder β] (key : α → β) : α → List α → α
  | best, [] => best
  | best, x :: xs => py_min key (if key x < key best then x else best) xs

/-- Time shift applied to every note by _notes_to_guitar_positions (lines
271-276): subtract the first note's start, clamping a negative result to 0. -/
def shift_start (first_start : ℚ) (n : Note) : ℚ :=
  if n.start - first_start < 0 then 0 else n.start - first_start

/-- Shifted end of a note (line 277): a negative result is replaced by 0.1. -/
def shift_end (first_start : ℚ) (n : Note) : ℚ :=
  if n.endTime - first_start < 0 then 1/10 else n.endTime - first_start

/-- Main loop of _notes_to_guitar_positions (transcriber.py lines 271-331):
a single pass over the notes threading the mutable current_hand_pos.
Returns the emitted events together with the final hand position. -/
def positions_aux (first_start : ℚ) (current_hand_pos : ℤ) :
    List Note → List TabEvent × ℤ
  | [] => ([], current_hand_pos)
  | n :: ns =>
    match possible_positions n.pitch with
    | [] => positions_aux first_start current_hand_pos ns
    | p :: ps =>
      let best_pos := py_min (calculate_cost current_hand_pos) p ps
      let new_hand := if best_pos.fret > 0 then best_pos.fret else current_hand_pos
      let rest := positions_aux first_start new_hand ns
      (⟨best_pos.string, best_pos.fret,
          shift_start first_start n, shift_end first_start n⟩ :: rest.1,
       rest.2)

/-- _notes_to_guitar_positions (transcriber.py lines 241-333). -/
def notes_to_guitar_positions (notes : List Note) : List TabEvent :=
  match notes with
  | [] => []
  | n :: _ => (positions_aux n.start 0 notes).1

/-- Final value of the current_hand_pos accumulator of
_notes_to_guitar_positions. -/
def final_hand_position (notes : List Note) : ℤ :=
  match notes with
  | [] => 0
  | n :: _ => (positions_aux n.start 0 notes).2

/-- Tablature result (tab_format.py, class TabResult). -/
structure TabResult where
  events : List TabEvent
  bpm : Option ℚ
deriving DecidableEq, Repr

/-- TabResult.from_tab_events (tab_format.py lines 19-32): rebuild a
TabResult from a list of event records, reading the four fields of each. -/
def from_tab_events (events : List TabEvent) (bpm : Option ℚ) : TabResult :=
  ⟨events.map (fun e => ⟨e.string, e.fret, e.start, e.endTime⟩), bpm⟩

/-- The structured (JSON) form produced by TabResult.to_json: a record of
event records plus the optional bpm. -/
structure TabJson where
  events : List TabEvent
  bpm : Option ℚ
deriving DecidableEq, Repr

/-- TabResult.to_json (tab_format.py lines 60-72). -/
def to_json (r : TabResult) : TabJson :=
  ⟨r.events.map (fun e => ⟨e.string, e.fret, e.start, e.endTime⟩), r.bpm⟩

/-- Ordering of tab events by start time, the sort key used by to_text and
_build_lilypond_source. -/
def eventStartLe (a b : TabEvent) : Prop := a.start ≤ b.start

instance : DecidableRel eventStartLe :=
  fun a b => inferInstanceAs (Decidable (a.start ≤ b.start))

instance : IsTotal TabEvent eventStartLe := ⟨fun a b => le_total a.start b.start⟩

instance : IsTrans TabEvent eventStartLe := ⟨fun _ _ _ h1 h2 => le_trans h1 h2⟩

/-- str(fret).rjust(2, "-"): right-justify in width 2, padding with dashes. -/
def rjust2 (s : String) : String :=
  if s.length < 2 then String.mk (List.replicate (2 - s.length) (Char.ofNat 45)) ++ s
  else s

/-- One row of the ASCII tab for string s (to_text inner loop, tab_format.py
lines 46-51): the fret number where the event is on string s, "--" elsewhere. -/
def text_row (s : ℤ) (sorted_events : List TabEvent) : String :=
  String.join (sorted_events.map (fun e =>
    if s = e.string then rjust2 (toString e.fret) else "--"))

/-- TabResult.to_text (tab_format.py lines 34-58): the fixed sentinel for an
empty result, otherwise one row per string 1..6. -/
def to_text (r : TabResult) : String :=
  if r.events = [] then "(no notes)"
  else
    let sorted_events := List.insertionSort eventStartLe r.events
    String.intercalate "\n"
      (((List.range 6).map (fun i => (i : ℤ) + 1)).map (fun s =>
        toString s ++ "|" ++ text_row s sorted_events))

/-- The duration vocabulary of _build_lilypond_source (tab_format.py lines
206-213), pairing beat lengths with LilyPond duration suffixes. -/
def duration_table : List (ℚ × String) :=
  [(4, "1"), (2, "2"), (1, "4"), (1/2, "8"), (1/4, "16"), (1/8, "32")]

/-- quantize_duration (tab_format.py lines 215-217): clamp below at 0.125
beats and pick the table entry with the nearest beat length (Python min
keeps the first entry on ties). -/
def quantize_duration (beats : ℚ) : String :=
  let b := max beats (1/8)
  match duration_table with
  | [] => ""
  | d :: ds => (py_min (fun x => |x.1 - b|) d ds).2

/-- The 12-tone pitch-name table of midi_to_pitch. -/
def note_names : List String :=
  ["c", "cis", "d", "ees", "e", "f", "fis", "g", "gis", "a", "bes", "b"]

/-- midi_to_pitch (tab_format.py lines 219-228): pitch-class name plus
octave markers relative to MIDI 48; Python % and // are Int.emod and
Int.fdiv.  Char 39 is the apostrophe, char 44 the comma. -/
def midi_to_pitch (midi : ℤ) : String :=
  let name := note_names.getD (midi % 12).toNat "c"
  let octave := (midi - 48).fdiv 12
  if octave > 0 then name ++ String.mk (List.replicate octave.toNat (Char.ofNat 39))
  else if octave < 0 then
    name ++ String.mk (List.replicate (-octave).toNat (Char.ofNat 44))
  else name

/-- Computable floor of a rational: Int.ediv of numerator by denominator
rounds toward minus infinity since the denominator is positive. -/
def rat_floor (q : ℚ) : ℤ := q.num / (q.den : ℤ)

/-- Python round: round half to even (used by quantize_beats and by the
tempo marking int(round(bpm))). -/
def py_round (q : ℚ) : ℤ :=
  let f := rat_floor q
  if q - f < 1/2 then f
  else if (1/2 : ℚ) < q - f then f + 1
  else if f % 2 = 0 then f else f + 1

/-- quantize_beats (tab_format.py lines 236-243): snap a beat count to the
fixed sixteenth-note grid of 0.25 beats. -/
def quantize_beats (beats : ℚ) : ℚ :=
  let grid : ℚ := 1/4
  (py_round (beats / grid) : ℚ) * grid

/-- A quantized event (the dicts built at tab_format.py lines 257-261). -/
structure QEvent where
  start : ℚ
  endB : ℚ
  event : TabEvent
deriving DecidableEq, Repr

/-- Quantization of all events (tab_format.py lines 246-261): convert
seconds to beats, quantize start and end, and force a minimum length of
0.125 beats when the quantized end does not exceed the quantized start. -/
def quantized_events (events : List TabEvent) (beats_per_second : ℚ) :
    List QEvent :=
  events.map (fun e =>
    let q_start := quantize_beats (e.start * beats_per_second)
    let q_end := quantize_beats (e.endTime * beats_per_second)
    ⟨q_start, if q_end ≤ q_start then q_start + 1/8 else q_end, e⟩)

/-- Ordering of quantized events by start beat (the sort at line 264). -/
def qStartLe (a b : QEvent) : Prop := a.start ≤ b.start

instance : DecidableRel qStartLe :=
  fun a b => inferInstanceAs (Decidable (a.start ≤ b.start))

instance : IsTotal QEvent qStartLe := ⟨fun a b => le_total a.start b.start⟩

instance : IsTrans QEvent qStartLe := ⟨fun _ _ _ h1 h2 => le_trans h1 h2⟩

/-- Legato gap-filling pass (tab_format.py lines 266-277): for each pair of
consecutive quantized events, a gap strictly between 0 and 1 beat between
the earlier event's end and the later event's start is closed by extending
the earlier event's end to the later event's start. -/
def legato_fill : List QEvent → List QEvent
  | [] => []
  | [e] => [e]
  | e :: f :: rest =>
    (if 0 < f.start - e.endB ∧ f.start - e.endB < 1
      then ⟨e.start, f.start, e.event⟩ else e) :: legato_fill (f :: rest)

/-- Chord-grouping loop (tab_format.py lines 280-293): an event joins the
current group when its start is within 0.01 beat of the start of the group's
last member (prev); otherwise it opens a new group. -/
def group_q_aux (cur : List QEvent) (prev : QEvent) :
    List QEvent → List (List QEvent)
  | [] => [cur]
  | q :: qs =>
    if |q.start - prev.start| < 1/100 then group_q_aux (cur ++ [q]) q qs
    else cur :: group_q_aux [q] q qs

/-- Grouping of the quantized events into chord groups, including the
emptiness guard at line 281. -/
def group_q : List QEvent → List (List QEvent)
  | [] => []
  | q :: qs => group_q_aux [q] q qs

/-- The pitch recomputation and range guard of the token emission
(tab_format.py lines 338-343): keep the members whose open-string pitch plus
fret lies in 40..88, as (pitch, string) pairs. -/
def valid_notes (group : List QEvent) : List (ℤ × ℤ) :=
  group.filterMap (fun item =>
    let pitch := open_strings item.event.string + item.event.fret
    if 40 ≤ pitch ∧ pitch ≤ 88 then some (pitch, item.event.string) else none)

/-- Maximum end beat of a chord group (line 302). -/
def max_end (q : QEvent) (rest : List QEvent) : ℚ :=
  rest.foldl (fun acc e => max acc e.endB) q.endB

/-- Token for a single pitched note with string annotation (line 351). -/
def note_token (p s : ℤ) (dur : String) : String :=
  midi_to_pitch p ++ dur ++ "\\" ++ toString s

/-- Token for a bracketed chord with string annotations (lines 355-356). -/
def chord_token (vs : List (ℤ × ℤ)) (dur : String) : String :=
  "<" ++ String.intercalate " "
      (vs.map (fun v => midi_to_pitch v.1 ++ "\\" ++ toString v.2)) ++
    ">" ++ dur

/-- Token-emission loop over the chord groups (tab_format.py lines 296-358),
threading previous_end_beats: emit a rest for a gap above 0.05 beat, then a
single note or a chord; a group with no valid notes is skipped without
updating previous_end_beats. -/
def group_tokens (previous_end_beats : ℚ) : List (List QEvent) → List String
  | [] => []
  | group :: gs =>
    match group with
    | [] => group_tokens previous_end_beats gs
    | q0 :: qrest =>
      let start_beats := q0.start
      let end_beats := max_end q0 qrest
      let gap := start_beats - previous_end_beats
      let rest_toks : List String :=
        if gap > 1/20 then ["r" ++ quantize_duration gap] else []
      let dur_str := quantize_duration (end_beats - start_beats)
      match valid_notes (q0 :: qrest) with
      | [] => rest_toks ++ group_tokens previous_end_beats gs
      | v :: vs =>
        rest_toks ++
          ((if vs = [] then note_token v.1 v.2 dur_str
            else chord_token (v :: vs) dur_str) ::
            group_tokens end_beats gs)

/-- The full token sequence of _build_lilypond_source for a list of events
and a bpm value: sort, quantize, sort again, fill gaps, group, emit. -/
def lilypond_tokens (events : List TabEvent) (bpm : ℚ) : List String :=
  let beats_per_second := bpm / 60
  let sorted := List.insertionSort eventStartLe events
  let qs := List.insertionSort qStartLe (quantized_events sorted beats_per_second)
  group_tokens 0 (group_q (legato_fill qs))

/-- Token line wrapping (tab_format.py lines 360-368): lines of 8 tokens. -/
def token_lines_aux (line : List String) : List String → List String
  | [] => if line = [] then [] else [String.intercalate " " line]
  | t :: ts =>
    let l2 := line ++ [t]
    if 8 ≤ l2.length then String.intercalate " " l2 :: token_lines_aux [] ts
    else token_lines_aux l2 ts

/-- The bpm actually used by _build_lilypond_source (line 194): Python
self.bpm or 120 falls back to 120 when bpm is None or zero. -/
def effective_bpm (bpm : Option ℚ) : ℚ :=
  match bpm with
  | none => 120
  | some b => if b = 0 then 120 else b

/-- _build_lilypond_source (tab_format.py lines 192-387): the final source
text.  Literal braces are written by Char.ofNat 123 and 125. -/
def build_lilypond_source (r : TabResult) (title : String) : String :=
  let bpm := effective_bpm r.bpm
  let music_block :=
    String.intercalate "\n  "
      (token_lines_aux [] (lilypond_tokens r.events bpm))
  let ob := String.mk [Char.ofNat 123]
  let cb := String.mk [Char.ofNat 125]
  "\\version \"2.24.0\"\n" ++
    "\\header " ++ ob ++ " title = \"" ++ title ++ "\" " ++ cb ++ "\n\n" ++
    "music = " ++ ob ++ "\n" ++
    "  \\tempo 4 = " ++ toString (py_round bpm) ++ "\n  " ++
    music_block ++ "\n" ++
    cb ++ "\n\n" ++
    "\\score " ++ ob ++ "\n" ++
    "  <<\n" ++
    "    \\new Staff " ++ ob ++ " \\clef \"treble\" \\music " ++ cb ++ "\n" ++
    "    \\new TabStaff " ++ ob ++ " \\clef \"moderntab\" \\tabFullNotation \\music " ++
      cb ++ "\n" ++
    "  >>\n" ++
    "  \\layout " ++ ob ++ " " ++ cb ++ "\n" ++
    "  \\midi " ++ ob ++ " " ++ cb ++ "\n" ++
    cb ++ "\n"

/-- TabResult.to_lilypond (tab_format.py lines 124-159) restricted to source
generation: raising ValueError on an empty event list is modelled by
Except.error, and a successful write of the source text by Except.ok. -/
def to_lilypond (r : TabResult) (title : String) : Except String String :=
  if r.events = [] then Except.error "No events to export as LilyPond score."
  else Except.ok (build_lilypond_source r title)

/-- Whether a note is playable on some string, i.e. whether the candidate
enumeration of _notes_to_guitar_positions is nonempty. -/
def playable (n : Note) : Bool := ! (possible_positions n.pitch).isEmpty

/-- C1 counterexample.  On the spec scenario (notes (0.0, 0.5, 40, 0.9) and
(0.5, 1.0, 45, 0.9), standard E tuning) the second note does NOT get string 5
fret 0 and the hand position does not stay 0: both candidates (6,5) and
(5,0) cost 0 because the hand position is still 0, and Python min keeps the
first-enumerated candidate, string 6 fret 5, after which the hand position
becomes 5.  So the claimed outcome is false. -/
theorem C1_claim_false :
    ¬ ((notes_to_guitar_positions
          [⟨0, 1/2, 40, 9/10⟩, ⟨1/2, 1, 45, 9/10⟩]).map (fun e => (e.string, e.fret)) =
        [(6, 0), (5, 0)] ∧
      final_hand_position [⟨0, 1/2, 40, 9/10⟩, ⟨1/2, 1, 45, 9/10⟩] = 0) := by
  with_unfolding_all decide

/-- C1 amended: on the spec scenario the fingering assignment emits string 6
fret 0 for the first note and string 6 fret 5 for the second (the cost tie at
hand position 0 is broken by the enumeration order 6 down to 1), and the
hand-position accumulator equals 5 after processing both notes. -/
theorem C1_amended :
    notes_to_guitar_positions [⟨0, 1/2, 40, 9/10⟩, ⟨1/2, 1, 45, 9/10⟩] =
      [⟨6, 0, 0, 1/2⟩, ⟨6, 5, 1/2, 1⟩] ∧
    final_hand_position [⟨0, 1/2, 40, 9/10⟩, ⟨1/2, 1, 45, 9/10⟩] = 5 := by
  with_unfolding_all decide

/-- C2 counterexample.  A single note starting at 1.0 s is emitted with
start 0 and end 0.5, not with its original times: _notes_to_guitar_positions
shifts every note by the first note's start. -/
theorem C2_claim_false :
    notes_to_guitar_positions [⟨1, 3/2, 40, 9/10⟩] = [⟨6, 0, 0, 1/2⟩] ∧
    ¬ ((0 : ℚ) = 1 ∧ (1/2 : ℚ) = 3/2) := by
  with_unfolding_all decide

/-- C3 counterexample.  quantize_beats maps 1/3 to 1/4, although 1/3 itself
is a point of the candidate grid of spacing 1/3 (namely 1 times 1/3) and has
error 0, strictly smaller than the error of the produced value.  So the
quantizer is restricted to the fixed 1/4 grid, not the four-grid set. -/
theorem C3_claim_false :
    quantize_beats (1/3) = 1/4 ∧
    |(1 : ℚ) * (1/3) - 1/3| < |quantize_beats (1/3) - 1/3| := by
  with_unfolding_all decide

/-- C6: decoding the structured form reproduces the TabResult exactly:
from_tab_events applied to the events and bpm of to_json r yields r, field
for field and in order. -/
theorem C6_roundtrip (r : TabResult) :
    from_tab_events (to_json r).events (to_json r).bpm = r := by
  cases r with
  | mk events bpm =>
    have hid : (fun e : TabEvent => TabEvent.mk e.string e.fret e.start e.endTime) = id := by
      funext e; cases e; rfl
    simp [from_tab_events, to_json, List.map_map, hid]

/-- C7: an empty event list makes to_text return the fixed sentinel
"(no notes)" and makes to_lilypond fail with the explicit no-events error,
while a nonempty event list never produces that error. -/
theorem C7_empty_behavior (bpm : Option ℚ) (title : String) (r : TabResult)
    (h : r.events ≠ []) :
    to_text ⟨[], bpm⟩ = "(no notes)" ∧
    to_lilypond ⟨[], bpm⟩ title =
      Except.error "No events to export as LilyPond score." ∧
    ∃ src, to_lilypond r title = Except.ok src := by
  refine ⟨rfl, rfl, build_lilypond_source r title, ?_⟩
  simp [to_lilypond, h]

/-- Witness for C7 at a concrete nonempty result. -/
theorem C7_empty_behavior_witness :
    to_text ⟨[], some 120⟩ = "(no notes)" ∧
    to_lilypond ⟨[], some 120⟩ "Guitar TAB" =
      Except.error "No events to export as LilyPond score." ∧
    ∃ src, to_lilypond ⟨[⟨6, 0, 0, 1⟩], some 120⟩ "Guitar TAB" = Except.ok src :=
  C7_empty_behavior (some 120) "Guitar TAB" ⟨[⟨6, 0, 0, 1⟩], some 120⟩
    (by with_unfolding_all decide)

/-- C9 counterexample.  Take events A = (string 6, fret 0, 0 s, 2 s),
B = (6, 0, 0 s, 0.5 s), C = (6, 0, 2.5 s, 3 s) at 60 bpm (so seconds equal
beats).  The two chord groups are adjacent and non-overlapping with a gap of
exactly 1/2 beat between the first group's end (max 2) and the second
group's start (5/2), yet the gap is not eliminated: a rest token r8 is
emitted between them, because the per-event legato pass only inspects the
pair (B, C), whose gap of 2 beats is not below 1 beat. -/
theorem C9_claim_false :
    group_q (legato_fill (List.insertionSort qStartLe
        (quantized_events (List.insertionSort eventStartLe
          [⟨6, 0, 0, 2⟩, ⟨6, 0, 0, 1/2⟩, ⟨6, 0, 5/2, 3⟩]) 1))) =
      [[⟨0, 2, ⟨6, 0, 0, 2⟩⟩, ⟨0, 1/2, ⟨6, 0, 0, 1/2⟩⟩], [⟨5/2, 3, ⟨6, 0, 5/2, 3⟩⟩]] ∧
    max_end ⟨0, 2, ⟨6, 0, 0, 2⟩⟩ [⟨0, 1/2, ⟨6, 0, 0, 1/2⟩⟩] = 2 ∧
    (0 < (5/2 : ℚ) - 2 ∧ (5/2 : ℚ) - 2 < 1) ∧
    lilypond_tokens [⟨6, 0, 0, 2⟩, ⟨6, 0, 0, 1/2⟩, ⟨6, 0, 5/2, 3⟩] 60 =
      ["<e,\\6 e,\\6>2", "r8", "e,8\\6"] := by
  with_unfolding_all decide

/-- The start and end of each emitted event depend only on the note and the
first note's start; the hand-position state never influences them, and a
note is emitted exactly when it is playable. -/
theorem positions_aux_times (first_start : ℚ) (hand : ℤ) (ns : List Note) :
    (positions_aux first_start hand ns).1.map (fun e => (e.start, e.endTime)) =
      (ns.filter playable).map
        (fun m => (shift_start first_start m, shift_end first_start m)) := by
  induction ns generalizing hand with
  | nil => simp [positions_aux]
  | cons m ms ih =>
    cases hpp : possible_positions m.pitch with
    | nil =>
      have hpl : playable m = false := by simp [playable, hpp]
      simp [positions_aux, hpp, List.filter_cons, hpl, ih]
    | cons p ps =>
      have hpl : playable m = true := by simp [playable, hpp]
      simp [positions_aux, hpp, List.filter_cons, hpl, ih]

/-- C2 amended: the Fingering Optimizer does not keep the original times; it
shifts every emitted event by the first note's start (clamping a negative
start to 0 and a negative end to 0.1).  The emitted (start, end) pairs are
exactly the shifted times of the playable notes, in order; original times
are preserved only when the first note starts at 0. -/
theorem C2_amended (n : Note) (ns : List Note) :
    (notes_to_guitar_positions (n :: ns)).map (fun e => (e.start, e.endTime)) =
      ((n :: ns).filter playable).map
        (fun m => (shift_start n.start m, shift_end n.start m)) := by
  simpa [notes_to_guitar_positions] using positions_aux_times n.start 0 (n :: ns)

/-- Python min keeps an element of the nonempty scanned list. -/
theorem py_min_mem {α β : Type} [LinearOrder β] (key : α → β) (b : α) (l : List α) :
    py_min key b l ∈ b :: l := by
  induction l generalizing b with
  | nil => simp [py_min]
  | cons x xs ih =>
    rw [py_min]
    rcases List.mem_cons.mp (ih (if key x < key b then x else b)) with h | h
    · rw [h]
      split_ifs <;> simp
    · simp [h]

/-- Every enumerated candidate has a fret between 0 and 20 and a string
between 1 and 6. -/
theorem possible_positions_mem {pitch : ℤ} {p : Pos}
    (h : p ∈ possible_positions pitch) :
    0 ≤ p.fret ∧ p.fret ≤ 20 ∧ 1 ≤ p.string ∧ p.string ≤ 6 := by
  simp only [possible_positions, List.mem_filterMap] at h
  obtain ⟨s, hs, hsome⟩ := h
  by_cases hc : 0 ≤ pitch - open_strings s ∧ pitch - open_strings s ≤ 20
  · rw [if_pos hc] at hsome
    obtain rfl := Option.some.inj hsome
    have hs16 : 1 ≤ s ∧ s ≤ 6 := by
      simp only [string_order, List.mem_cons, List.not_mem_nil, or_false] at hs
      rcases hs with rfl | rfl | rfl | rfl | rfl | rfl <;> omega
    exact ⟨hc.1, hc.2, hs16.1, hs16.2⟩
  · rw [if_neg hc] at hsome
    simp at hsome

/-- All events emitted by the state-threading loop satisfy the fret and
string bounds, for every hand-position state. -/
theorem positions_aux_bounds (first_start : ℚ) (hand : ℤ) (ns : List Note) :
    ∀ e ∈ (positions_aux first_start hand ns).1,
      0 ≤ e.fret ∧ e.fret ≤ 20 ∧ 1 ≤ e.string ∧ e.string ≤ 6 := by
  induction ns generalizing hand with
  | nil => simp [positions_aux]
  | cons m ms ih =>
    intro e he
    cases hpp : possible_positions m.pitch with
    | nil =>
      rw [positions_aux, hpp] at he
      exact ih _ e he
    | cons p ps =>
      rw [positions_aux, hpp] at he
      rcases List.mem_cons.mp he with rfl | he
      · have hmem : py_min (calculate_cost hand) p ps ∈ possible_positions m.pitch := by
          rw [hpp]; exact py_min_mem _ p ps
        exact possible_positions_mem hmem
      · exact ih _ e he

/-- C5: every TabEvent produced by the Fingering Optimizer has a fret
between 0 and 20 and a string between 1 and 6, for every input note list. -/
theorem C5_bounds (notes : List Note) (e : TabEvent)
    (he : e ∈ notes_to_guitar_positions notes) :
    0 ≤ e.fret ∧ e.fret ≤ 20 ∧ 1 ≤ e.string ∧ e.string ≤ 6 := by
  cases notes with
  | nil => simp [notes_to_guitar_positions] at he
  | cons n ns =>
    exact positions_aux_bounds n.start 0 (n :: ns) e he

/-- Witness for C5 at a concrete input. -/
theorem C5_bounds_witness :
    (⟨6, 0, 0, 1⟩ : TabEvent) ∈ notes_to_guitar_positions [⟨0, 1, 40, 9/10⟩] ∧
    (0 ≤ (⟨6, 0, 0, 1⟩ : TabEvent).fret ∧ (⟨6, 0, 0, 1⟩ : TabEvent).fret ≤ 20 ∧
      1 ≤ (⟨6, 0, 0, 1⟩ : TabEvent).string ∧ (⟨6, 0, 0, 1⟩ : TabEvent).string ≤ 6) :=
  ⟨by with_unfolding_all decide,
    C5_bounds [⟨0, 1, 40, 9/10⟩] ⟨6, 0, 0, 1⟩ (by with_unfolding_all decide)⟩

/-- C10: for events with string 1..6 and fret 0..20, the pitch recomputed by
the typeset encoder as open-string pitch plus fret lies in 40..84, so the
40..88 range guard keeps every chord-group member and valid_notes of a
nonempty group is never empty (the skip branch is unreachable). -/
theorem C10_pitch_range (g : List QEvent) (hne : g ≠ [])
    (hb : ∀ q ∈ g, 1 ≤ q.event.string ∧ q.event.string ≤ 6 ∧
            0 ≤ q.event.fret ∧ q.event.fret ≤ 20) :
    (∀ q ∈ g, 40 ≤ open_strings q.event.string + q.event.fret ∧
        open_strings q.event.string + q.event.fret ≤ 84) ∧
    valid_notes g ≠ [] := by
  have hrange : ∀ q ∈ g, 40 ≤ open_strings q.event.string + q.event.fret ∧
      open_strings q.event.string + q.event.fret ≤ 84 := by
    intro q hq
    obtain ⟨h1, h2, h3, h4⟩ := hb q hq
    have hos : 40 ≤ open_strings q.event.string ∧ open_strings q.event.string ≤ 64 := by
      interval_cases h : q.event.string <;> simp [open_strings]
    omega
  refine ⟨hrange, ?_⟩
  cases g with
  | nil => exact absurd rfl hne
  | cons q rest =>
    have hq := hrange q (List.mem_cons_self q rest)
    have hcond : 40 ≤ open_strings q.event.string + q.event.fret ∧
        open_strings q.event.string + q.event.fret ≤ 88 := ⟨hq.1, by omega⟩
    simp only [valid_notes, List.filterMap_cons, if_pos hcond]
    exact List.cons_ne_nil _ _

/-- Witness for C10 at a concrete one-event group. -/
theorem C10_pitch_range_witness :
    ([⟨0, 1, ⟨6, 0, 0, 1⟩⟩] : List QEvent) ≠ [] ∧
    (∀ q ∈ ([⟨0, 1, ⟨6, 0, 0, 1⟩⟩] : List QEvent),
        1 ≤ q.event.string ∧ q.event.string ≤ 6 ∧
          0 ≤ q.event.fret ∧ q.event.fret ≤ 20) ∧
    ((∀ q ∈ ([⟨0, 1, ⟨6, 0, 0, 1⟩⟩] : List QEvent),
        40 ≤ open_strings q.event.string + q.event.fret ∧
          open_strings q.event.string + q.event.fret ≤ 84) ∧
      valid_notes [⟨0, 1, ⟨6, 0, 0, 1⟩⟩] ≠ []) :=
  ⟨by with_unfolding_all decide, by with_unfolding_all decide,
    C10_pitch_range [⟨0, 1, ⟨6, 0, 0, 1⟩⟩] (by with_unfolding_all decide)
      (by with_unfolding_all decide)⟩

/-- rat_floor agrees with the mathematical floor. -/
theorem rat_floor_eq_floor (q : ℚ) : rat_floor q = ⌊q⌋ :=
  Rat.floor_def.symm

/-- py_round returns an integer at least as close to its argument as any
other integer (half-to-even tie-breaking included). -/
theorem py_round_nearest (q : ℚ) (k : ℤ) :
    |(py_round q : ℚ) - q| ≤ |(k : ℚ) - q| := by
  have hk1 : (k : ℚ) - q ≤ |(k : ℚ) - q| := le_abs_self _
  have hk2 : q - (k : ℚ) ≤ |(k : ℚ) - q| := by
    rw [abs_sub_comm]; exact le_abs_self _
  simp only [py_round, rat_floor_eq_floor]
  set f := ⌊q⌋ with hf
  have h0 : (f : ℚ) ≤ q := Int.floor_le q
  have h1 : q < (f : ℚ) + 1 := Int.lt_floor_add_one q
  have hcast : ∀ m n : ℤ, m ≤ n → (m : ℚ) ≤ (n : ℚ) := fun m n h => by exact_mod_cast h
  split_ifs with hlt hgt heven
  · -- q - f < 1/2, rounds down to f
    rw [abs_sub_comm, abs_of_nonneg (by linarith)]
    rcases lt_trichotomy k f with hk | hk | hk
    · have : (k : ℚ) ≤ (f : ℚ) - 1 := by
        have := hcast k (f - 1) (by omega); push_cast at this; linarith
      linarith
    · subst hk; rw [abs_sub_comm, abs_of_nonneg (by linarith)]
    · have : (f : ℚ) + 1 ≤ (k : ℚ) := by
        have := hcast (f + 1) k (by omega); push_cast at this; linarith
      linarith
  · -- q - f > 1/2, rounds up to f + 1
    have habs : |((f + 1 : ℤ) : ℚ) - q| = (f : ℚ) + 1 - q := by
      rw [abs_of_nonneg (by push_cast; linarith)]; push_cast; ring
    rw [habs]
    rcases lt_trichotomy k f with hk | hk | hk
    · have : (k : ℚ) ≤ (f : ℚ) - 1 := by
        have := hcast k (f - 1) (by omega); push_cast at this; linarith
      linarith
    · subst hk; linarith
    · have : (f : ℚ) + 1 ≤ (k : ℚ) := by
        have := hcast (f + 1) k (by omega); push_cast at this; linarith
      linarith
  · -- exact tie q - f = 1/2 with even floor: rounds down to f
    have htie : q - (f : ℚ) = 1/2 := le_antisymm (not_lt.mp hgt) (not_lt.mp hlt)
    rw [abs_sub_comm, abs_of_nonneg (by linarith)]
    rcases le_or_lt k f with hk | hk
    · have : (k : ℚ) ≤ (f : ℚ) := hcast k f hk
      linarith
    · have : (f : ℚ) + 1 ≤ (k : ℚ) := by
        have := hcast (f + 1) k (by omega); push_cast at this; linarith
      linarith
  · -- exact tie with odd floor: rounds up to f + 1
    have htie : q - (f : ℚ) = 1/2 := le_antisymm (not_lt.mp hgt) (not_lt.mp hlt)
    have habs : |((f + 1 : ℤ) : ℚ) - q| = (f : ℚ) + 1 - q := by
      rw [abs_of_nonneg (by push_cast; linarith)]; push_cast; ring
    rw [habs]
    rcases le_or_lt k f with hk | hk
    · have : (k : ℚ) ≤ (f : ℚ) := hcast k f hk
      linarith
    · have : (f : ℚ) + 1 ≤ (k : ℚ) := by
        have := hcast (f + 1) k (by omega); push_cast at this; linarith
      linarith

/-- C3 amended: the rhythm quantizer snaps every beat value to the fixed
sixteenth-note grid only: the result is an integer multiple of 1/4 beat and
is at least as close to the input as every other multiple of 1/4 beat (ties
broken half-to-even by Python round); the grids 1/3, 1/6 and 1/8 are not
consulted. -/
theorem C3_amended (b : ℚ) (k : ℤ) :
    (∃ m : ℤ, quantize_beats b = (m : ℚ) * (1/4)) ∧
    |quantize_beats b - b| ≤ |(k : ℚ) * (1/4) - b| := by
  constructor
  · exact ⟨py_round (b / (1/4)), rfl⟩
  · have hq : quantize_beats b = (py_round (b / (1/4)) : ℚ) * (1/4) := rfl
    have hb : b = (b / (1/4)) * (1/4) := by ring
    rw [hq]
    calc |(py_round (b / (1/4)) : ℚ) * (1/4) - b|
        = |((py_round (b / (1/4)) : ℚ) - b / (1/4)) * (1/4)| := by
          rw [sub_mul]; congr 1; linarith [hb]
      _ = |(py_round (b / (1/4)) : ℚ) - b / (1/4)| * (1/4) := by
          rw [abs_mul]; norm_num
      _ ≤ |(k : ℚ) - b / (1/4)| * (1/4) := by
          have := py_round_nearest (b / (1/4)) k
          have h14 : (0:ℚ) ≤ 1/4 := by norm_num
          exact mul_le_mul_of_nonneg_right this h14
      _ = |(k : ℚ) * (1/4) - b| := by
          have hswap : (k : ℚ) * (1/4) - b = ((k : ℚ) - b / (1/4)) * (1/4) := by
            field_simp
            ring
          rw [hswap, abs_mul, abs_of_nonneg (by norm_num : (0:ℚ) ≤ 1/4)]

/-- Placeholder quantized event used as the out-of-range default of
List.getD in index-wise statements. -/
def qdefault : QEvent := ⟨0, 0, ⟨0, 0, 0, 0⟩⟩

/-- The legato pass keeps the length of the event list. -/
theorem legato_fill_length (l : List QEvent) :
    (legato_fill l).length = l.length := by
  induction l with
  | nil => rfl
  | cons e rest ih =>
    cases rest with
    | nil => rfl
    | cons f rest2 =>
      rw [legato_fill]
      simpa using ih

/-- The legato pass never changes start beats. -/
theorem legato_fill_starts (l : List QEvent) :
    (legato_fill l).map QEvent.start = l.map QEvent.start := by
  induction l with
  | nil => rfl
  | cons e rest ih =>
    cases rest with
    | nil => rfl
    | cons f rest2 =>
      rw [legato_fill]
      simp only [List.map_cons] at ih ⊢
      rw [ih]
      split_ifs <;> rfl

/-- C9 amended: the legato correction of the typeset-encoder pipeline acts
on adjacent quantized events, not on chord groups.  For every position i,
when the gap between event i's end and event i+1's start is strictly between
0 and 1 beat, event i's end is extended to event i+1's start; otherwise
(gap ≤ 0, or gap ≥ 1 beat, e.g. 1.2 beats) event i's end is unchanged, so
such a gap survives to the rest-emission stage.  At the chord-group level
the 0.4-beat claim fails (see the counterexample): a group whose
last-listed member is not its longest can keep a sub-beat gap and produce a
rest. -/
theorem C9_amended (l : List QEvent) (i : ℕ) (h : i + 1 < l.length) :
    (legato_fill l).length = l.length ∧
    (legato_fill l).map QEvent.start = l.map QEvent.start ∧
    ((0 < (l.getD (i+1) qdefault).start - (l.getD i qdefault).endB ∧
        (l.getD (i+1) qdefault).start - (l.getD i qdefault).endB < 1) →
      ((legato_fill l).getD i qdefault).endB = (l.getD (i+1) qdefault).start) ∧
    (¬ (0 < (l.getD (i+1) qdefault).start - (l.getD i qdefault).endB ∧
        (l.getD (i+1) qdefault).start - (l.getD i qdefault).endB < 1) →
      ((legato_fill l).getD i qdefault).endB = (l.getD i qdefault).endB) := by
  refine ⟨legato_fill_length l, legato_fill_starts l, ?_, ?_⟩ <;>
  · induction l generalizing i with
    | nil => simp at h
    | cons e rest ih =>
      cases rest with
      | nil => simp at h
      | cons f rest2 =>
        cases i with
        | zero =>
          intro hgap
          rw [legato_fill]
          simp only [List.getD_cons_zero, List.getD_cons_succ] at hgap ⊢
          first
            | rw [if_pos hgap]
            | rw [if_neg hgap]
        | succ j =>
          intro hgap
          have hj : j + 1 < (f :: rest2).length := by
            simpa using Nat.lt_of_succ_lt_succ h
          rw [legato_fill]
          simp only [List.getD_cons_succ] at hgap ⊢
          exact ih j hj hgap

/-- Witness for C9 amended: a singleton-group pair with a 1/2-beat gap is
closed by the pass. -/
theorem C9_amended_witness :
    (0 : ℕ) + 1 < ([⟨0, 1, ⟨6, 0, 0, 1⟩⟩, ⟨3/2, 2, ⟨6, 0, 3/2, 2⟩⟩] : List QEvent).length ∧
    ((legato_fill [⟨0, 1, ⟨6, 0, 0, 1⟩⟩, ⟨3/2, 2, ⟨6, 0, 3/2, 2⟩⟩]).length =
        ([⟨0, 1, ⟨6, 0, 0, 1⟩⟩, ⟨3/2, 2, ⟨6, 0, 3/2, 2⟩⟩] : List QEvent).length ∧
      (legato_fill [⟨0, 1, ⟨6, 0, 0, 1⟩⟩, ⟨3/2, 2, ⟨6, 0, 3/2, 2⟩⟩]).map QEvent.start =
        ([⟨0, 1, ⟨6, 0, 0, 1⟩⟩, ⟨3/2, 2, ⟨6, 0, 3/2, 2⟩⟩] : List QEvent).map QEvent.start ∧
      ((0 < (([⟨0, 1, ⟨6, 0, 0, 1⟩⟩, ⟨3/2, 2, ⟨6, 0, 3/2, 2⟩⟩] : List QEvent).getD 1 qdefault).start -
            (([⟨0, 1, ⟨6, 0, 0, 1⟩⟩, ⟨3/2, 2, ⟨6, 0, 3/2, 2⟩⟩] : List QEvent).getD 0 qdefault).endB ∧
          (([⟨0, 1, ⟨6, 0, 0, 1⟩⟩, ⟨3/2, 2, ⟨6, 0, 3/2, 2⟩⟩] : List QEvent).getD 1 qdefault).start -
            (([⟨0, 1, ⟨6, 0, 0, 1⟩⟩, ⟨3/2, 2, ⟨6, 0, 3/2, 2⟩⟩] : List QEvent).getD 0 qdefault).endB < 1) →
        ((legato_fill [⟨0, 1, ⟨6, 0, 0, 1⟩⟩, ⟨3/2, 2, ⟨6, 0, 3/2, 2⟩⟩]).getD 0 qdefault).endB =
          (([⟨0, 1, ⟨6, 0, 0, 1⟩⟩, ⟨3/2, 2, ⟨6, 0, 3/2, 2⟩⟩] : List QEvent).getD 1 qdefault).start) ∧
      (¬ (0 < (([⟨0, 1, ⟨6, 0, 0, 1⟩⟩, ⟨3/2, 2, ⟨6, 0, 3/2, 2⟩⟩] : List QEvent).getD 1 qdefault).start -
            (([⟨0, 1, ⟨6, 0, 0, 1⟩⟩, ⟨3/2, 2, ⟨6, 0, 3/2, 2⟩⟩] : List QEvent).getD 0 qdefault).endB ∧
          (([⟨0, 1, ⟨6, 0, 0, 1⟩⟩, ⟨3/2, 2, ⟨6, 0, 3/2, 2⟩⟩] : List QEvent).getD 1 qdefault).start -
            (([⟨0, 1, ⟨6, 0, 0, 1⟩⟩, ⟨3/2, 2, ⟨6, 0, 3/2, 2⟩⟩] : List QEvent).getD 0 qdefault).endB < 1) →
        ((legato_fill [⟨0, 1, ⟨6, 0, 0, 1⟩⟩, ⟨3/2, 2, ⟨6, 0, 3/2, 2⟩⟩]).getD 0 qdefault).endB =
          (([⟨0, 1, ⟨6, 0, 0, 1⟩⟩, ⟨3/2, 2, ⟨6, 0, 3/2, 2⟩⟩] : List QEvent).getD 0 qdefault).endB)) :=
  ⟨by with_unfolding_all decide,
    C9_amended [⟨0, 1, ⟨6, 0, 0, 1⟩⟩, ⟨3/2, 2, ⟨6, 0, 3/2, 2⟩⟩] 0
      (by with_unfolding_all decide)⟩

/-- C8: in a two-note simultaneity group whose root has velocity 1.0 and
whose other note lies 12 semitones above the root, the harmonic filter
removes the upper note when its velocity is 0.5 (below 0.8 times the root's)
and keeps it when its velocity is 0.9; the root is kept in both cases.  The
hypotheses say that the two notes form one 50 ms group and that both
survive the duration cleanup. -/
theorem C8_harmonic (s1 e1 s2 e2 : ℚ) (p : ℤ)
    (h1 : s1 ≤ s2) (h2 : s2 - s1 < 1/20)
    (h3 : 1/20 ≤ e1 - s1) (h4 : 1/20 ≤ e2 - s2) :
    filter_notes [⟨s1, e1, p, 1⟩, ⟨s2, e2, p + 12, 1/2⟩] = [⟨s1, e1, p, 1⟩] ∧
    filter_notes [⟨s1, e1, p, 1⟩, ⟨s2, e2, p + 12, 9/10⟩] =
      [⟨s1, e1, p, 1⟩, ⟨s2, e2, p + 12, 9/10⟩] := by
  have habs : |s2 - s1| < 1/20 := by
    rw [abs_of_nonneg (by linarith)]; exact h2
  have hp : p ≤ p + 12 := by omega
  have hd1 : ¬ (e1 - s1 < 1/20) := not_lt.mpr h3
  have hd2 : ¬ (e2 - s2 < 1/20) := not_lt.mpr h4
  constructor
  · have hsorted : List.Sorted startLe [(⟨s1, e1, p, 1⟩ : Note), ⟨s2, e2, p + 12, 1/2⟩] := by
      simp [List.sorted_cons, startLe, h1]
    have hpsorted : List.Sorted pitchLe [(⟨s1, e1, p, 1⟩ : Note), ⟨s2, e2, p + 12, 1/2⟩] := by
      simp [List.sorted_cons, pitchLe, hp]
    have hharm : is_harmonic ⟨s1, e1, p, 1⟩ ⟨s2, e2, p + 12, 1/2⟩ = true := by
      simp only [is_harmonic, decide_eq_true_eq]
      left
      constructor
      · simp [add_sub_cancel_left]
      · norm_num
    have hgroup : group_notes [(⟨s1, e1, p, 1⟩ : Note), ⟨s2, e2, p + 12, 1/2⟩] =
        [[⟨s1, e1, p, 1⟩, ⟨s2, e2, p + 12, 1/2⟩]] := by
      simp only [group_notes, group_aux, List.singleton_append]
      rw [if_pos habs]
    have hne : ¬ ([(⟨s1, e1, p, 1⟩ : Note), ⟨s2, e2, p + 12, 1/2⟩].length = 1) := by simp
    have hkeep : keep_group [(⟨s1, e1, p, 1⟩ : Note), ⟨s2, e2, p + 12, 1/2⟩] =
        [⟨s1, e1, p, 1⟩] := by
      rw [keep_group, if_neg hne, hpsorted.insertionSort_eq]
      simp only [List.filter_cons, List.filter_nil, hharm, Bool.not_true,
        Bool.cond_false, Bool.cond_true]
      simp
    have hb1 : (decide (¬ (e1 - s1 < 1/20)) : Bool) = true := decide_eq_true hd1
    have hb2 : (decide (¬ (p > 75 ∧ (1 : ℚ) < 3/10)) : Bool) = true :=
      decide_eq_true (by rintro ⟨-, hv⟩; norm_num at hv)
    rw [filter_notes, hsorted.insertionSort_eq, hgroup]
    simp only [List.map_cons, List.map_nil, List.flatten, List.append_nil]
    rw [hkeep]
    simp only [final_cleanup, List.filter_cons, List.filter_nil, hb1, hb2,
      Bool.and_self, Bool.cond_true]
    simp
  · have hsorted : List.Sorted startLe [(⟨s1, e1, p, 1⟩ : Note), ⟨s2, e2, p + 12, 9/10⟩] := by
      simp [List.sorted_cons, startLe, h1]
    have hpsorted : List.Sorted pitchLe [(⟨s1, e1, p, 1⟩ : Note), ⟨s2, e2, p + 12, 9/10⟩] := by
      simp [List.sorted_cons, pitchLe, hp]
    have hharm : is_harmonic ⟨s1, e1, p, 1⟩ ⟨s2, e2, p + 12, 9/10⟩ = false := by
      simp only [is_harmonic, decide_eq_false_iff_not]
      rintro (⟨_, hv⟩ | ⟨hmem, _⟩)
      · norm_num at hv
      · simp [add_sub_cancel_left] at hmem
    have hgroup : group_notes [(⟨s1, e1, p, 1⟩ : Note), ⟨s2, e2, p + 12, 9/10⟩] =
        [[⟨s1, e1, p, 1⟩, ⟨s2, e2, p + 12, 9/10⟩]] := by
      simp only [group_notes, group_aux, List.singleton_append]
      rw [if_pos habs]
    have hne : ¬ ([(⟨s1, e1, p, 1⟩ : Note), ⟨s2, e2, p + 12, 9/10⟩].length = 1) := by simp
    have hkeep : keep_group [(⟨s1, e1, p, 1⟩ : Note), ⟨s2, e2, p + 12, 9/10⟩] =
        [⟨s1, e1, p, 1⟩, ⟨s2, e2, p + 12, 9/10⟩] := by
      rw [keep_group, if_neg hne, hpsorted.insertionSort_eq]
      simp only [List.filter_cons, List.filter_nil, hharm, Bool.not_false,
        Bool.cond_false, Bool.cond_true]
      simp
    have hb1 : (decide (¬ (e1 - s1 < 1/20)) : Bool) = true := decide_eq_true hd1
    have hb2 : (decide (¬ (p > 75 ∧ (1 : ℚ) < 3/10)) : Bool) = true :=
      decide_eq_true (by rintro ⟨-, hv⟩; norm_num at hv)
    have hb3 : (decide (¬ (e2 - s2 < 1/20)) : Bool) = true := decide_eq_true hd2
    have hb4 : (decide (¬ (p + 12 > 75 ∧ (9/10 : ℚ) < 3/10)) : Bool) = true :=
      decide_eq_true (by rintro ⟨-, hv⟩; norm_num at hv)
    rw [filter_notes, hsorted.insertionSort_eq, hgroup]
    simp only [List.map_cons, List.map_nil, List.flatten, List.append_nil]
    rw [hkeep]
    simp only [final_cleanup, List.filter_cons, List.filter_nil, hb1, hb2, hb3, hb4,
      Bool.and_self, Bool.cond_true]
    simp

/-- Witness for C8 at concrete times and pitch. -/
theorem C8_harmonic_witness :
    ((0 : ℚ) ≤ 0 ∧ (0 : ℚ) - 0 < 1/20 ∧ (1/20 : ℚ) ≤ 1 - 0 ∧ (1/20 : ℚ) ≤ 1 - 0) ∧
    (filter_notes [⟨0, 1, 48, 1⟩, ⟨0, 1, 48 + 12, 1/2⟩] = [⟨0, 1, 48, 1⟩] ∧
      filter_notes [⟨0, 1, 48, 1⟩, ⟨0, 1, 48 + 12, 9/10⟩] =
        [⟨0, 1, 48, 1⟩, ⟨0, 1, 48 + 12, 9/10⟩]) :=
  ⟨by norm_num,
    C8_harmonic 0 1 0 1 48 (by norm_num) (by norm_num) (by norm_num) (by norm_num)⟩

/-- Every member of every group produced by group_aux comes from the
current group or from the remaining notes. -/
theorem group_aux_mem {cur : List Note} {anchor : ℚ} {rest : List Note}
    {g : List Note} {x : Note}
    (hg : g ∈ group_aux cur anchor rest) (hx : x ∈ g) :
    x ∈ cur ∨ x ∈ rest := by
  induction rest generalizing cur anchor with
  | nil =>
    rw [group_aux] at hg
    simp only [List.mem_singleton] at hg
    subst hg
    exact Or.inl hx
  | cons n ns ih =>
    rw [group_aux] at hg
    split_ifs at hg with hc
    · rcases ih hg with h | h
      · rcases List.mem_append.mp h with h | h
        · exact Or.inl h
        · simp only [List.mem_singleton] at h
          subst h
          exact Or.inr (List.mem_cons_self _ _)
      · exact Or.inr (List.mem_cons_of_mem _ h)
    · rcases List.mem_cons.mp hg with rfl | hg2
      · exact Or.inl hx
      · rcases ih hg2 with h | h
        · simp only [List.mem_singleton] at h
          subst h
          exact Or.inr (List.mem_cons_self _ _)
        · exact Or.inr (List.mem_cons_of_mem _ h)

/-- Structure of the groups produced by group_aux on a sorted tail: all
members of one group start within the 50 ms window of its anchor, and
members of distinct groups appear in strict start order. -/
theorem group_aux_good {cur : List Note} {anchor : ℚ} {rest : List Note}
    (hcur : ∀ a ∈ cur, anchor ≤ a.start ∧ a.start < anchor + 1/20)
    (hrest : ∀ b ∈ rest, anchor ≤ b.start)
    (hsorted : List.Sorted startLe rest) :
    (∀ g ∈ group_aux cur anchor rest, ∀ a ∈ g, ∀ b ∈ g,
        |a.start - b.start| < 1/20) ∧
    List.Pairwise (fun g h => ∀ a ∈ g, ∀ b ∈ h, a.start < b.start)
      (group_aux cur anchor rest) := by
  induction rest generalizing cur anchor with
  | nil =>
    rw [group_aux]
    constructor
    · intro g hg a ha b hb
      simp only [List.mem_singleton] at hg
      subst hg
      obtain ⟨ha1, ha2⟩ := hcur a ha
      obtain ⟨hb1, hb2⟩ := hcur b hb
      rw [abs_sub_lt_iff]
      constructor <;> linarith
    · exact List.pairwise_singleton _ _
  | cons n ns ih =>
    obtain ⟨hn_le, hns_sorted⟩ := List.sorted_cons.mp hsorted
    have hanchor_n : anchor ≤ n.start := hrest n (List.mem_cons_self _ _)
    rw [group_aux]
    split_ifs with hc
    · -- n joins the current group
      refine ih ?_ ?_ hns_sorted
      · intro a ha
        rcases List.mem_append.mp ha with h | h
        · exact hcur a h
        · simp only [List.mem_singleton] at h
          subst h
          exact ⟨hanchor_n, by have := (abs_lt.mp hc).2; linarith⟩
      · intro b hb
        exact le_trans hanchor_n (hn_le b hb)
    · -- n opens a new group
      have hn_far : anchor + 1/20 ≤ n.start := by
        rw [abs_of_nonneg (by linarith)] at hc
        linarith [not_lt.mp hc]
      obtain ⟨ihw, ihp⟩ := @ih [n] n.start
        (by
          intro a ha
          simp only [List.mem_singleton] at ha
          subst ha
          exact ⟨le_refl _, by linarith⟩)
        (fun b hb => hn_le b hb) hns_sorted
      constructor
      · intro g hg a ha b hb
        rcases List.mem_cons.mp hg with rfl | hg2
        · obtain ⟨ha1, ha2⟩ := hcur a ha
          obtain ⟨hb1, hb2⟩ := hcur b hb
          rw [abs_sub_lt_iff]
          constructor <;> linarith
        · exact ihw g hg2 a ha b hb
      · refine List.Pairwise.cons ?_ ihp
        intro g hgmem a hacur b hbg
        have hb2 : b ∈ [n] ∨ b ∈ ns := group_aux_mem hgmem hbg
        have hb_ge : n.start ≤ b.start := by
          rcases hb2 with h | h
          · simp only [List.mem_singleton] at h
            subst h
            exact le_refl _
          · exact hn_le b h
        have ha_lt : a.start < anchor + 1/20 := (hcur a hacur).2
        linarith

/-- Survivors of the per-group harmonic filtering are members of the group. -/
theorem keep_group_subset {g : List Note} {x : Note} (hx : x ∈ keep_group g) :
    x ∈ g := by
  rw [keep_group] at hx
  split_ifs at hx with hc
  · exact hx
  · cases hs : List.insertionSort pitchLe g with
    | nil => rw [hs] at hx; simp at hx
    | cons root others =>
      rw [hs] at hx
      have hmem : x ∈ root :: others → x ∈ g := by
        intro h
        rw [← hs] at h
        exact (List.mem_insertionSort pitchLe).mp h
      rcases List.mem_cons.mp hx with rfl | hx2
      · exact hmem (List.mem_cons_self _ _)
      · exact hmem (List.mem_cons_of_mem _ (List.mem_of_mem_filter hx2))

/-- C4 amended: the Note Filter's output is start-ascending only up to the
50 ms coincidence window: whenever survivor a precedes survivor b in the
output, b starts strictly later than a.start minus 50 ms.  Survivors from
different simultaneity groups keep strict start order; only members of one
50 ms group can be listed out of start order, because each multi-note group
is re-sorted by ascending pitch, not by time (see the counterexample). -/
theorem C4_amended (notes : List Note) :
    List.Pairwise (fun a b => a.start - 1/20 < b.start) (filter_notes notes) := by
  rw [filter_notes, final_cleanup]
  apply List.Pairwise.sublist (List.filter_sublist _)
  rw [List.pairwise_flatten]
  have hs : List.Sorted startLe (List.insertionSort startLe notes) :=
    List.sorted_insertionSort startLe notes
  cases hsort_eq : List.insertionSort startLe notes with
  | nil => simp [group_notes]
  | cons n ns =>
    rw [hsort_eq] at hs
    obtain ⟨hn_le, hns_sorted⟩ := List.sorted_cons.mp hs
    have hgood := @group_aux_good [n] n.start ns
      (by
        intro a ha
        simp only [List.mem_singleton] at ha
        subst ha
        exact ⟨le_refl _, by linarith⟩)
      (fun b hb => hn_le b hb) hns_sorted
    rw [group_notes]
    constructor
    · intro l hl
      obtain ⟨g, hg, rfl⟩ := List.mem_map.mp hl
      apply List.pairwise_of_forall_mem_list
      intro a ha b hb
      have hab := hgood.1 g hg a (keep_group_subset ha) b (keep_group_subset hb)
      have := (abs_sub_lt_iff.mp hab).1
      linarith
    · refine List.Pairwise.map keep_group ?_ hgood.2
      intro g h hgh a ha b hb
      have := hgh a (keep_group_subset ha) b (keep_group_subset hb)
      linarith

/-- C4 counterexample.  Input notes (0.00 s, 1 s, pitch 50, vel 0.9) and
(0.04 s, 1 s, pitch 45, vel 0.9) form one 50 ms simultaneity group; the
group is re-sorted by pitch, so the filter output lists the 0.04 s note
before the 0.00 s note: the output is not sorted time-ascending and the
survivors are reordered relative to pure time-sorting. -/
theorem C4_claim_false :
    (filter_notes [⟨0, 1, 50, 9/10⟩, ⟨1/25, 1, 45, 9/10⟩]).map Note.start =
      [1/25, 0] ∧
    ¬ ((1/25 : ℚ) ≤ 0) := by
  with_unfolding_all decide

end GuitarTab
